import Mathlib

/-!
Verification of the sentence-generation core of `wb_genedescriptions`
(`descriptions_rules.py`), shallowly embedded in Lean 4.

Modelling conventions, used consistently below:
* Python strings are `List Char` (`Str`); string literals are written
  `"...".toList`.
* Python sets are `Finset _` when the source returns a set, and
  insertion-ordered duplicate-free lists when the source iterates over a
  set it also mutates (Python's set iteration order is unspecified; the
  model fixes the insertion order and no theorem below depends on it).
* Python dicts are association lists (insertion-ordered, as Python dicts
  are); a dict that the source only ever reads with keys it knows to be
  present is passed as a total function.
* The ontology is the external read-only graph service of the spec:
  `query_term` returns `none` for unknown ids, where the source would
  raise; theorems about code paths that assume a present term carry the
  corresponding hypothesis.
* Recursion over the ontology DAG (acyclic by contract, spec section 7) is
  given an explicit fuel argument so that every definition is executable.
-/

namespace GeneDesc

abbrev Str := List Char

/-- An ontology node as consumed by the core: `id`, `name`, `depth`
(distance from a root, non-negative by the spec's data model) and the
ids of its parent terms (`node.parents` in the source holds term objects;
the model stores their ids and re-queries, which agrees with the source
on ontologies where `query_term` inverts `id`). -/
structure OntoTerm where
  id : Str
  name : Str
  depth : Nat
  parents : List Str
deriving DecidableEq

/-- The external ontology graph service. -/
structure Ontology where
  terms : List OntoTerm
deriving DecidableEq

/-- `go_ontology.query_term(term_id)`: the collaborator interface of spec
section 6; `none` for an unknown id. -/
def query_term (o : Ontology) (term_id : Str) : Option OntoTerm :=
  o.terms.find? (fun t => t.id == term_id)

/-- `go_ontology.query_term(i).name`, with `[]` for an unknown id (the
source would raise there). -/
def name_of (o : Ontology) (i : Str) : Str :=
  match query_term o i with
  | some t => t.name
  | none => []

/-- `go_ontology.query_term(i).id`, with `[]` for an unknown id. -/
def id_of (o : Ontology) (i : Str) : Str :=
  match query_term o i with
  | some t => t.id
  | none => []

/-! ### Sentence composition (`compose_go_sentence`, source lines 358-377) -/

/-- The Oxford-comma-and-"and" list grammar exactly as the claims state
it: one term stands alone, two are joined by `" and "`, three or more are
joined by `", "` with `", and "` before the last.  This is the spec-side
rendering of the join; `compose_go_sentence` below is the source-side
embedding, and the two are related by theorem `compose_c1`. -/
def oxford_join (xs : List Str) : Str :=
  if 2 < xs.length then
    List.intercalate (", ".toList) xs.dropLast ++ ", and ".toList ++ xs.getLastD []
  else if 1 < xs.length then
    List.intercalate (" and ".toList) xs
  else
    xs.headI

/-- `compose_go_sentence(prefix, go_term_names, postfix)`.  The source
appends a space to the prefix, prepends a space to a non-empty postfix,
and joins the term names with the Oxford-comma grammar; on an empty term
list it raises `IndexError` (`go_term_names[0]`), modelled as `none`. -/
def compose_go_sentence (pfx : Str) (go_term_names : List Str) (pofx : Str) : Option Str :=
  let p := pfx ++ [' ']
  let q := if pofx = [] then [] else ' ' :: pofx
  if 2 < go_term_names.length then
    some (p ++ List.intercalate (", ".toList) go_term_names.dropLast ++ ", and ".toList
            ++ go_term_names.getLastD [] ++ q)
  else if 1 < go_term_names.length then
    some (p ++ List.intercalate (" and ".toList) go_term_names ++ q)
  else
    match go_term_names with
    | [] => none
    | n :: _ => some (p ++ n ++ q)

/-- On a non-empty term list, `compose_go_sentence` succeeds and its
result is prefix, space, Oxford-joined names, and the space-prefixed
postfix when the postfix is non-empty. -/
theorem compose_go_sentence_eq (pfx pofx : Str) (go_term_names : List Str)
    (h : go_term_names ≠ []) :
    compose_go_sentence pfx go_term_names pofx =
      some (pfx ++ [' '] ++ oxford_join go_term_names
              ++ (if pofx = [] then [] else ' ' :: pofx)) := by
  match go_term_names, h with
  | [n], _ => simp [compose_go_sentence, oxford_join, List.append_assoc]
  | [n, b], _ => simp [compose_go_sentence, oxford_join, List.append_assoc]
  | n :: b :: c :: l, _ =>
    have h3 : 2 < (n :: b :: c :: l).length := by
      simp only [List.length_cons]
      omega
    simp only [compose_go_sentence, oxford_join, if_pos h3]
    simp [List.append_assoc]

/-! ### Ancestor and path enumeration (source lines 229-277) -/

/-- `get_all_go_parent_names(go_id, go_ontology)`: for each parent, a root
parent (one with no parents of its own) is skipped entirely, a non-root
parent contributes its name followed by its own recursive ancestor names.
`fuel` bounds the DAG recursion; a missing term contributes nothing (the
source would raise there). -/
def get_all_go_parent_names (fuel : Nat) (go_id : Str) (o : Ontology) : List Str :=
  match fuel with
  | 0 => []
  | fuel + 1 =>
    match query_term o go_id with
    | none => []
    | some t =>
      t.parents.flatMap (fun pid =>
        match query_term o pid with
        | none => []
        | some p =>
          if 0 < p.parents.length then
            p.name :: get_all_go_parent_names fuel pid o
          else [])

/-- `get_all_term_paths_to_root(go_id, go_ontology,
min_distance_from_root, previous_path)` (default arguments `0` and the
empty path): depth-first enumeration of all paths to the roots, truncated
as soon as a node's depth drops below `min_distance_from_root`.  A missing
term yields no paths (the source would raise). -/
def get_all_term_paths_to_root (fuel : Nat) (go_id : Str) (o : Ontology)
    (min_distance_from_root : Nat) (previous_path : List Str) : Finset (List Str) :=
  match fuel with
  | 0 => ∅
  | fuel + 1 =>
    match query_term o go_id with
    | none => ∅
    | some t =>
      if min_distance_from_root ≤ t.depth then
        let new_path := previous_path ++ [t.id]
        if 0 < t.parents.length then
          t.parents.foldl
            (fun acc pid =>
              acc ∪ get_all_term_paths_to_root fuel pid o min_distance_from_root new_path)
            ∅
        else {new_path}
      else {previous_path}

/-! ### Parent pruning (source lines 280-296) -/

/-- `get_term_ids_without_parents_from_terms_names(go_terms_names,
term_ids_dict, go_ontology)`: starts from the set of input names, discards
every ancestor name of every input term, then maps the survivors through
the name-to-id dict.  The dict is passed as a total function, as the
source only reads it at the input names. -/
def get_term_ids_without_parents_from_terms_names (fuel : Nat)
    (go_terms_names : List Str) (term_ids_dict : Str → Str) (o : Ontology) : Finset Str :=
  let go_terms_set :=
    go_terms_names.foldl
      (fun s n => (get_all_go_parent_names fuel (term_ids_dict n) o).foldl Finset.erase s)
      go_terms_names.toFinset
  go_terms_set.image term_ids_dict

theorem foldl_erase_eq (l : List Str) (s : Finset Str) :
    l.foldl Finset.erase s = s \ l.toFinset := by
  induction l generalizing s with
  | nil => simp
  | cons a l ih =>
    simp only [List.foldl_cons, ih, List.toFinset_cons, Finset.erase_eq, sdiff_sdiff,
      Finset.insert_eq, Finset.sup_eq_union]

theorem foldl_discard_eq (names : List Str) (A : Str → List Str) (init : Finset Str) :
    names.foldl (fun s n => (A n).foldl Finset.erase s) init
      = init \ (names.flatMap A).toFinset := by
  induction names generalizing init with
  | nil => simp
  | cons n ns ih =>
    rw [List.foldl_cons, foldl_erase_eq, ih, sdiff_sdiff, List.flatMap_cons,
      List.toFinset_append]
    simp [Finset.sup_eq_union]

/-- The pruning function, characterized as a set difference followed by an
image: the surviving names are the input names minus all ancestor names. -/
theorem prune_eq (fuel : Nat) (names : List Str) (d : Str → Str) (o : Ontology) :
    get_term_ids_without_parents_from_terms_names fuel names d o
      = (names.toFinset
          \ (names.flatMap (fun n => get_all_go_parent_names fuel (d n) o)).toFinset).image d := by
  simp only [get_term_ids_without_parents_from_terms_names, foldl_discard_eq]

theorem list_map_toFinset (l : List Str) (f : Str → Str) :
    (l.map f).toFinset = l.toFinset.image f := by
  induction l with
  | nil => simp
  | cons a l ih => simp [ih]

/-! ### Common-ancestor merge (source lines 299-355)

The source keeps two `defaultdict`s (`term_paths`, mapping a term id to
the set of its retained paths, and `ancestor_paths`, mapping an ancestor
id to the list of paths ending at it) and mutates them inside nested
`while` loops.  The model threads both as association lists; Python's
unspecified `set.pop`/set-iteration order is fixed to the insertion
order, and the unbounded `while` loops are given fuel.  No theorem below
depends on this branch: claim C2 concerns only the threshold guard. -/

abbrev GoPath := List Str

/-- `defaultdict` read: the stored list, or `[]` for a missing key. -/
def assoc_get (m : List (Str × List GoPath)) (k : Str) : List GoPath :=
  match m.find? (fun kv => kv.1 == k) with
  | some kv => kv.2
  | none => []

/-- Dict write, keeping the key's position (as Python dicts do) and
appending a fresh key at the end. -/
def assoc_put (m : List (Str × List GoPath)) (k : Str) (v : List GoPath) :
    List (Str × List GoPath) :=
  match m with
  | [] => [(k, v)]
  | kv :: rest => if kv.1 = k then (k, v) :: rest else kv :: assoc_put rest k v

/-- `del m[k]`. -/
def assoc_del (m : List (Str × List GoPath)) (k : Str) : List (Str × List GoPath) :=
  m.filter (fun kv => kv.1 ≠ k)

/-- `term_paths[path[0]].discard(path)` iterated over `related`. -/
def discard_related (tp : List (Str × List GoPath)) (related : List GoPath) :
    List (Str × List GoPath) :=
  related.foldl
    (fun acc p => assoc_put acc (p.headD []) ((assoc_get acc (p.headD [])).filter (fun q => q ≠ p)))
    tp

/-- Step 1 of the merge (source lines 320-327): collect, for every input
term id, all root paths longer than one node, indexing them both by the
owning term (`term_paths`, a set per term: duplicate-free list) and by
their outermost ancestor (`ancestor_paths`, a list per ancestor). -/
def merge_step1 (fuel : Nat) (term_ids : List Str) (o : Ontology) (min_dist : Nat) :
    List (Str × List GoPath) × List (Str × List GoPath) :=
  term_ids.foldl
    (fun st gid =>
      -- Python iterates the path set in an unspecified order; the model
      -- fixes the lexicographic order on paths.
      ((get_all_term_paths_to_root fuel gid o min_dist []).sort (· ≤ ·)).foldl
        (fun st path =>
          if 1 < path.length then
            (assoc_put st.1 gid
               (if path ∈ assoc_get st.1 gid then assoc_get st.1 gid
                else assoc_get st.1 gid ++ [path]),
             assoc_put st.2 (path.getLastD [])
               (assoc_get st.2 (path.getLastD []) ++ [path]))
          else st)
        st)
    ([], [])

/-- The inner `while len(curr_path) > 1` walk (source lines 336-345).
The source's second `all(...)` test compares each related path (a tuple
of ids) with the id `curr_path[-1]` via `==`; in Python a tuple never
equals a string, so that test holds exactly when `related` is empty, and
the walk breaks immediately otherwise.  `fuel` starts at the length of
`curr_path`. -/
def merge_walk (fuel : Nat) (curr_path : List Str) (selected : Str)
    (related : List GoPath) (ap tp : List (Str × List GoPath)) :
    Str × List (Str × List GoPath) × List (Str × List GoPath) :=
  match fuel with
  | 0 => (selected, ap, tp)
  | fuel + 1 =>
    if 1 < curr_path.length then
      let curr2 := curr_path.dropLast
      let cha := curr_path.getLastD []
      if !(related.all (fun x => decide (curr2.length ≤ x.length)) && related.isEmpty) then
        (selected, ap, tp)
      else
        let ap2 := if ap.any (fun kv => kv.1 == cha) then assoc_del ap cha else ap
        let tp2 := discard_related tp related
        merge_walk fuel curr2 cha related ap2 tp2
    else (selected, ap, tp)

/-- One term's `while len(term_paths_copy) > 0` loop (source lines
331-352).  Python pops an unspecified element from the copied set; the
model pops the head of the insertion-ordered list. -/
def merge_outer (fuel : Nat) (gid : Str) (copy : List GoPath)
    (final : List Str) (ap tp : List (Str × List GoPath)) :
    List Str × List (Str × List GoPath) × List (Str × List GoPath) :=
  match fuel with
  | 0 => (final, ap, tp)
  | fuel + 1 =>
    match copy with
    | [] => (final, ap, tp)
    | curr0 :: _ =>
      let selected0 := curr0.getLastD []
      let curr1 := curr0.dropLast
      let related := assoc_get ap selected0
      let ap1 := assoc_del ap selected0
      let walked := merge_walk curr1.length curr1 selected0 related ap1 tp
      let selected := walked.1
      let final2 := if selected ∈ final then final else final ++ [selected]
      let tp3 := discard_related walked.2.2 related
      let rest := assoc_get tp3 gid
      if 0 < rest.length then merge_outer fuel gid rest final2 walked.2.1 tp3
      else (final2, walked.2.1, tp3)

/-- Step 2 of the merge (source lines 329-352): process every input term
in order, accumulating the selected ancestors in `final`. -/
def merge_step2 (fuel : Nat) (term_ids : List Str)
    (tp0 ap0 : List (Str × List GoPath)) : List Str :=
  (term_ids.foldl
    (fun st gid =>
      let res := merge_outer fuel gid (assoc_get st.2.2 gid) st.1 st.2.1 st.2.2
      (res.1, res.2.1, res.2.2))
    (([] : List Str), ap0, tp0)).1

/-- `get_merged_term_ids_by_common_ancestor_from_term_names(...)`: a
no-op (modulo name-to-id mapping) when the number of terms does not
exceed `min_number_of_terms`, the path-merging algorithm above
otherwise. -/
def get_merged_term_ids_by_common_ancestor_from_term_names (fuel : Nat)
    (go_terms_names : List Str) (term_ids_dict : Str → Str) (o : Ontology)
    (min_distance_from_root : Nat) (min_number_of_terms : Nat) : Finset Str :=
  if min_number_of_terms < go_terms_names.length then
    let ids := go_terms_names.map term_ids_dict
    let st := merge_step1 fuel ids o min_distance_from_root
    (merge_step2 fuel ids st.1 st.2).toFinset
  else
    (go_terms_names.map term_ids_dict).toFinset

/-! ### Postfix-phrase merging (`merge_postfix_phrases`, source lines 107-143)

The external `inflect` engine is an out-of-scope collaborator; its
`plural` method is passed in as a function `infl`. -/

/-- `sorted(zip(phrases, lengths), key=len)[0][0]`: the first phrase of
minimal length (Python's sort is stable). -/
def shortest_phrase (ps : List Str) : Str :=
  match ps with
  | [] => []
  | p :: rest => rest.foldl (fun acc x => if x.length < acc.length then x else acc) p

/-- The source's leading loop: walk `shortest` character by character and
keep extending while every phrase agrees at the current index (index `i`
into a phrase is the head after `i` tails). -/
def lead_run (phrases : List Str) : Str → Str
  | [] => []
  | c :: s =>
    if phrases.all (fun x => x.headI == c) then
      c :: lead_run (phrases.map List.tail) s
    else []

/-- Python `s.replace(pat, "")`: remove every non-overlapping occurrence
of `pat`, scanning left to right; `fuel` starts at `s.length` (each step
consumes at least one character, so the fuel never runs out). -/
def replace_all_go (pat : Str) : Nat → Str → Str
  | _, [] => []
  | 0, _ => []
  | fuel + 1, c :: rest =>
    if pat.isPrefixOf (c :: rest) then replace_all_go pat fuel (rest.drop (pat.length - 1))
    else c :: replace_all_go pat fuel rest

/-- Python `s.replace(pat, "")` (with `s.replace("", "") == s`). -/
def replace_all (pat s : Str) : Str :=
  if pat = [] then s else replace_all_go pat s.length s

/-- Python `s.strip()` restricted to spaces (the only whitespace
occurring in the phrases). -/
def py_strip (s : Str) : Str :=
  ((s.dropWhile (fun c => c == ' ')).reverse.dropWhile (fun c => c == ' ')).reverse

/-- Python `s.split(" ")`: split on every single space, keeping empty
segments, with `"".split(" ") == [""]`. -/
def py_split_space : Str → List Str
  | [] => [[]]
  | c :: rest =>
    let r := py_split_space rest
    if c == ' ' then [] :: r
    else
      match r with
      | [] => [[c]]
      | h :: t => (c :: h) :: t

/-- `GOSentencesCollection.merge_postfix_phrases(postfix_phrases)` with
the `inflect` pluralizer passed as `infl`.  The trailing loop is the
leading loop applied to the reversed phrases, matching the source's
`x[len(x)-idx-1] == shortest[len(shortest)-idx-1]` test. -/
def merge_pofx_phrases (infl : Str → Str) (pofx_phrases : List Str) : Str :=
  if 1 < pofx_phrases.length then
    let shortest := shortest_phrase pofx_phrases
    let first_part := lead_run pofx_phrases shortest
    let last_part := (lead_run (pofx_phrases.map List.reverse) shortest.reverse).reverse
    let new_phrases := pofx_phrases.map (fun p => replace_all last_part (replace_all first_part p))
    let last_part2 :=
      if (py_split_space (py_strip last_part)).length = 1 then infl last_part else last_part
    if 2 < new_phrases.length then
      first_part ++ List.intercalate (", ".toList) new_phrases.dropLast ++ ", and ".toList
        ++ new_phrases.getLastD [] ++ last_part2
    else if 1 < new_phrases.length then
      first_part ++ List.intercalate (" and ".toList) new_phrases ++ last_part2
    else
      first_part ++ new_phrases.headI ++ last_part2
  else pofx_phrases.headI

/-- Strip one leading occurrence of `fp` (claim C7's reading of the
middle extraction). -/
def strip_lead (fp s : Str) : Str :=
  if fp.isPrefixOf s then s.drop fp.length else s

/-- Strip one trailing occurrence of `lp` (claim C7's reading). -/
def strip_trail (lp s : Str) : Str :=
  if lp.isSuffixOf s then s.take (s.length - lp.length) else s

/-- The merge as claim C7 words it: identical to `merge_pofx_phrases`
except that the leading and trailing common substrings are stripped once
from the ends of each phrase instead of having every occurrence
removed.  Kept only to be compared with the source-side definition. -/
def merge_pofx_phrases_claimed (infl : Str → Str) (pofx_phrases : List Str) : Str :=
  if 1 < pofx_phrases.length then
    let shortest := shortest_phrase pofx_phrases
    let first_part := lead_run pofx_phrases shortest
    let last_part := (lead_run (pofx_phrases.map List.reverse) shortest.reverse).reverse
    let new_phrases := pofx_phrases.map (fun p => strip_trail last_part (strip_lead first_part p))
    let last_part2 :=
      if (py_split_space (py_strip last_part)).length = 1 then infl last_part else last_part
    first_part ++ oxford_join new_phrases ++ last_part2
  else pofx_phrases.headI

/-! ### Generic dict helpers (Python dicts as insertion-ordered
association lists) -/

/-- Dict read. -/
def map_get {α β : Type} [BEq α] (m : List (α × β)) (k : α) : Option β :=
  (m.find? (fun kv => kv.1 == k)).map (fun kv => kv.2)

/-- Dict write: an existing key keeps its position, a fresh key is
appended, as in Python. -/
def map_put {α β : Type} [BEq α] (m : List (α × β)) (k : α) (v : β) : List (α × β) :=
  match m with
  | [] => [(k, v)]
  | kv :: rest => if kv.1 == k then (k, v) :: rest else kv :: map_put rest k v

/-- `d1.update(d2)`. -/
def dict_update {α β : Type} [BEq α] (m new : List (α × β)) : List (α × β) :=
  new.foldl (fun acc kv => map_put acc kv.1 kv.2) m

/-- Union of a Python set (insertion-ordered duplicate-free list) with a
list of new elements (`set.update`). -/
def set_union_list (s new : List Str) : List Str :=
  new.foldl (fun acc x => if x ∈ acc then acc else acc ++ [x]) s

/-! ### Sentences (`GOSentence`, `GOSentencesCollection`; source lines
7-105 and 380-407) -/

/-- The `GOSentence` named tuple (fields `prefix` and `postfix` are
spelled `pfx` and `pofx`). -/
structure GOSentence where
  pfx : Str
  terms : List Str
  term_ids_dict : List (Str × Str)
  pofx : Str
  text : Str
  go_aspect : Str
  evidence_group : Str
deriving DecidableEq

/-- The mutable `GOSentenceMerger` accumulator (field
`postfix_list`/`term_postfix_dict` spelled with `pofx`). -/
structure GOSentenceMerger where
  pofx_list : List Str
  terms : List Str
  terms_ids_dict : List (Str × Str)
  term_pofx_dict : List (Str × Str)
  evidence_groups : List Str
  term_evgroup_dict : List (Str × Str)
deriving DecidableEq

def empty_merger : GOSentenceMerger := ⟨[], [], [], [], [], []⟩

/-- `GOSentencesCollection`; `go_prepostfix_sentences_map` (spelled
`prepofx_map`) is passed as a total function since the source reads it
only at keys it created sentences for. -/
structure GOSentencesCollection where
  evidence_groups_list : List Str
  prepofx_map : Str × Str → Str × Str
  sentences_map : List ((Str × Str) × GOSentence)
  merge_min_distance_from_root : Nat
  merge_num_terms_threshold : Nat
  remove_parent_terms : Bool

/-- `GOSentencesCollection.set_sentence(sentence)`. -/
def set_sentence (c : GOSentencesCollection) (s : Option GOSentence) : GOSentencesCollection :=
  match s with
  | none => c
  | some s =>
    { c with sentences_map := map_put c.sentences_map (s.go_aspect, s.evidence_group) s }

/-- `_get_single_go_sentence(...)`: `None` on an empty term list,
otherwise a sentence whose text is composed from the prefix/postfix pair
for its aspect and evidence group. -/
def _get_single_go_sentence (go_term_names : List Str) (go_term_ids_dict : List (Str × Str))
    (go_aspect : Str) (evidence_group : Str) (prepofx : Str × Str → Str × Str) :
    Option GOSentence :=
  if 0 < go_term_names.length then
    let p := (prepofx (go_aspect, evidence_group)).1
    let q := (prepofx (go_aspect, evidence_group)).2
    match compose_go_sentence p go_term_names q with
    | some txt => some ⟨p, go_term_names, go_term_ids_dict, q, txt, go_aspect, evidence_group⟩
    | none => none
  else none

/-- The merge-branch update of one evidence group's sentence into its
prefix's accumulator (source lines 61-70). -/
def merger_update (c : GOSentencesCollection) (aspect eg : Str) (sent : GOSentence)
    (m : GOSentenceMerger) : GOSentenceMerger :=
  let q := (c.prepofx_map (aspect, eg)).2
  { pofx_list := m.pofx_list ++ [q],
    terms := set_union_list m.terms sent.terms,
    terms_ids_dict := dict_update m.terms_ids_dict sent.term_ids_dict,
    term_pofx_dict := sent.terms.foldl (fun acc t => map_put acc t q) m.term_pofx_dict,
    evidence_groups := m.evidence_groups ++ [eg],
    term_evgroup_dict := sent.terms.foldl (fun acc t => map_put acc t eg) m.term_evgroup_dict }

/-- The collection loop of `get_sentences` (source lines 58-74): walk the
evidence groups in priority order, either appending each found sentence
or folding it into the per-prefix accumulators, stopping after the first
hit when `keep_only_best_group` is set. -/
def collect_sentences (c : GOSentencesCollection) (aspect : Str)
    (keep_only_best merge_flag : Bool) :
    List Str → List GOSentence × List (Str × GOSentenceMerger) →
      List GOSentence × List (Str × GOSentenceMerger)
  | [], st => st
  | eg :: rest, st =>
    match map_get c.sentences_map (aspect, eg) with
    | none => collect_sentences c aspect keep_only_best merge_flag rest st
    | some sent =>
      let st2 :=
        if merge_flag then
          let p := (c.prepofx_map (aspect, eg)).1
          (st.1, map_put st.2 p (merger_update c aspect eg sent ((map_get st.2 p).getD empty_merger)))
        else (st.1 ++ [sent], st.2)
      if keep_only_best then st2
      else collect_sentences c aspect keep_only_best merge_flag rest st2

/-- Insertion-ordered deduplication: Python's `set(...)` materialized as
a list. -/
def dedup_keep (l : List Str) : List Str :=
  l.foldl (fun acc x => if x ∈ acc then acc else acc ++ [x]) []

/-- The per-prefix trimming of `get_sentences` (source lines 78-95):
optional parent pruning, then optional common-ancestor merging.  The
source's merge step assigns the rebuilt ids dict to a fresh attribute
`term_ids_dict` while the accumulator field is `terms_ids_dict`, so the
field is left unchanged there. -/
def merger_trim (fuel : Nat) (c : GOSentencesCollection) (o : Ontology)
    (m : GOSentenceMerger) : GOSentenceMerger :=
  let m1 :=
    if c.remove_parent_terms then
      let ids := get_term_ids_without_parents_from_terms_names fuel m.terms
        (fun n => (map_get m.terms_ids_dict n).getD []) o
      let names := dedup_keep ((ids.sort (· ≤ ·)).map (name_of o))
      { m with terms := names,
               terms_ids_dict := m.terms_ids_dict.filter (fun kv => kv.1 ∈ names) }
    else m
  if 0 < c.merge_num_terms_threshold then
    let merged := get_merged_term_ids_by_common_ancestor_from_term_names fuel m1.terms
      (fun n => (map_get m1.terms_ids_dict n).getD []) o
      c.merge_min_distance_from_root c.merge_num_terms_threshold
    { m1 with terms := (merged.sort (· ≤ ·)).map (name_of o) }
  else m1

/-- `GOSentencesCollection.get_sentences(go_aspect, go_ontology,
keep_only_best_group, merge_groups_with_same_prefix)`. -/
def get_sentences (fuel : Nat) (c : GOSentencesCollection) (aspect : Str) (o : Ontology)
    (keep_only_best merge_flag : Bool) (infl : Str → Str) : List GOSentence :=
  let st := collect_sentences c aspect keep_only_best merge_flag c.evidence_groups_list ([], [])
  if merge_flag then
    let merged2 := st.2.map (fun pm => (pm.1, merger_trim fuel c o pm.2))
    (merged2.filter (fun pm => 0 < pm.2.terms.length)).map (fun pm =>
      { pfx := pm.1,
        terms := pm.2.terms,
        term_ids_dict := pm.2.terms_ids_dict,
        pofx := merge_pofx_phrases infl pm.2.pofx_list,
        text := (compose_go_sentence pm.1 pm.2.terms
                   (merge_pofx_phrases infl pm.2.pofx_list)).getD [],
        go_aspect := aspect,
        evidence_group := List.intercalate (", ".toList) pm.2.evidence_groups })
  else st.1

/-! ### Evidence-group aggregation (`generate_go_sentences`, source lines
146-226) -/

/-- One GO annotation record, restricted to the keys the core reads. -/
structure Annot where
  evidence : Str
  aspect : Str
  go_name : Str
  go_id : Str
deriving DecidableEq

/-- One special-case tuple `(id, match_regex, prefix, postfix)`.  The
source applies `re.escape` to the regex before `re.match`, so matching
is a literal prefix test on the term name. -/
structure SpecialCase where
  pid : Nat
  pattern : Str
  pfx : Str
  pofx : Str
deriving DecidableEq

/-- `str(priority_id)`. -/
def nat_str (n : Nat) : Str := (Nat.repr n).toList

/-- Python `list.insert(i, x)` (the index is clamped to the length). -/
def py_insert (l : List Str) (i : Nat) (x : Str) : List Str :=
  l.take i ++ x :: l.drop i

/-- Python `list.index(x)`; for an absent element the source raises
`ValueError`, the model returns the length. -/
def py_index (l : List Str) (x : Str) : Nat :=
  match l with
  | [] => 0
  | a :: rest => if a = x then 0 else py_index rest x + 1

/-- The state threaded through the annotation loop: the
`(aspect, evidence group) -> set of (name, id)` buckets and the caller's
`evidence_groups_priority_list`, which the source mutates in place. -/
structure BucketState where
  groups : List ((Str × Str) × List (Str × Str))
  egpl : List Str
deriving DecidableEq

/-- `go_terms_groups[key].add(pair)` on a `defaultdict(set)`. -/
def bucket_add (g : List ((Str × Str) × List (Str × Str))) (k : Str × Str) (v : Str × Str) :
    List ((Str × Str) × List (Str × Str)) :=
  match g with
  | [] => [(k, [v])]
  | kv :: rest =>
    if kv.1 == k then (k, if v ∈ kv.2 then kv.2 else kv.2 ++ [v]) :: rest
    else kv :: bucket_add rest k v

/-- The bucket a key holds (empty for an absent key). -/
def bucket_get (g : List ((Str × Str) × List (Str × Str))) (k : Str × Str) :
    List (Str × Str) :=
  match g.find? (fun kv => kv.1 == k) with
  | some kv => kv.2
  | none => []

/-- The body of the annotation loop (source lines 184-199): skip unknown
evidence codes; check the special cases for the `(aspect, group)` key in
order and redirect the annotation to the synthetic sub-group named
`group + str(priority_id)` on the first literal-prefix match, inserting
that sub-group right after its parent group in the priority list when it
is not yet there; finally add the `(name, id)` pair to the bucket. -/
def process_annot (special_map : List ((Str × Str) × List SpecialCase))
    (ev_map : List (Str × Str)) (st : BucketState) (a : Annot) : BucketState :=
  match map_get ev_map a.evidence with
  | none => st
  | some grp =>
    match map_get special_map (a.aspect, grp) with
    | some cases =>
      match cases.find? (fun sc => sc.pattern.isPrefixOf a.go_name) with
      | some sc =>
        let sub := grp ++ nat_str sc.pid
        let egpl2 :=
          if sub ∈ st.egpl then st.egpl
          else py_insert st.egpl (py_index st.egpl grp + 1) sub
        { groups := bucket_add st.groups (a.aspect, sub) (a.go_name, a.go_id), egpl := egpl2 }
      | none => { st with groups := bucket_add st.groups (a.aspect, grp) (a.go_name, a.go_id) }
    | none => { st with groups := bucket_add st.groups (a.aspect, grp) (a.go_name, a.go_id) }

/-- The per-bucket body of the second loop of `generate_go_sentences`
(source lines 204-225): extract names and the name-to-id dict, optionally
prune parents, optionally merge by common ancestor, and store the
composed sentence. -/
def build_bucket_sentence (fuel : Nat) (o : Ontology) (prepofx : Str × Str → Str × Str)
    (remove_parents : Bool) (threshold min_dist : Nat)
    (c : GOSentencesCollection) (key : Str × Str) (go_terms : List (Str × Str)) :
    GOSentencesCollection :=
  let go_term_names := go_terms.map (fun t => t.1)
  let dict0 := go_terms.foldl (fun m t => map_put m t.1 t.2) []
  let st1 :=
    if remove_parents then
      let ids := get_term_ids_without_parents_from_terms_names fuel go_term_names
        (fun n => (map_get dict0 n).getD []) o
      ((ids.sort (· ≤ ·)).map (name_of o),
       (ids.sort (· ≤ ·)).foldl (fun m i => map_put m (name_of o i) (id_of o i)) [])
    else (go_term_names, dict0)
  let st2 :=
    if 0 < threshold then
      let merged := get_merged_term_ids_by_common_ancestor_from_term_names fuel st1.1
        (fun n => (map_get st1.2 n).getD []) o min_dist threshold
      ((merged.sort (· ≤ ·)).map (name_of o),
       (merged.sort (· ≤ ·)).foldl (fun m i => map_put m (name_of o i) (id_of o i)) [])
    else st1
  set_sentence c (_get_single_go_sentence st2.1 st2.2 key.1 key.2 prepofx)

/-- `generate_go_sentences(go_annotations, go_ontology,
evidence_groups_priority_list, ...)`.  Returns the optional collection
(`None` for an empty annotation list, as in the source) paired with the
final contents of the caller's `evidence_groups_priority_list`, which the
source mutates in place. -/
def generate_go_sentences (fuel : Nat) (go_annotations : List Annot) (o : Ontology)
    (evidence_groups_priority_list : List Str)
    (prepofx : Str × Str → Str × Str)
    (special_map : List ((Str × Str) × List SpecialCase))
    (ev_map : List (Str × Str))
    (remove_parent_terms : Bool) (merge_num_terms_threshold : Nat)
    (merge_min_distance_from_root : Nat) :
    Option GOSentencesCollection × List Str :=
  if 0 < go_annotations.length then
    let st := go_annotations.foldl (process_annot special_map ev_map)
      ⟨[], evidence_groups_priority_list⟩
    let coll0 : GOSentencesCollection :=
      ⟨st.egpl, prepofx, [], merge_min_distance_from_root, merge_num_terms_threshold,
        remove_parent_terms⟩
    let coll := st.groups.foldl
      (fun c entry =>
        build_bucket_sentence fuel o prepofx remove_parent_terms
          merge_num_terms_threshold merge_min_distance_from_root c entry.1 entry.2)
      coll0
    (some coll, st.egpl)
  else (none, evidence_groups_priority_list)

/-! ### Weighted set covering -/

/-- A labelled subset `(id, label, covered_elements)`. -/
abbrev CovSubset := Str × Str × Finset Str

/-- One greedy pick (spec section 4.3): the first subset maximizing the
weight times the number of newly covered elements; `none` when no subset
covers anything new. -/
def greedy_step (subsets : List (CovSubset × ℚ)) (covered : Finset Str) :
    Option CovSubset :=
  let scored := subsets.map
    (fun sw => (sw.1, sw.2 * (((sw.1.2.2 \ covered).card : ℚ)), (sw.1.2.2 \ covered).card))
  match scored with
  | [] => none
  | s0 :: rest =>
    let best := rest.foldl (fun acc x => if acc.2.1 < x.2.1 then x else acc) s0
    if 0 < best.2.2 then some best.1 else none

/-- The greedy loop, bounded by `max_num_subsets`. -/
def greedy_cover (fuel : Nat) (subsets : List (CovSubset × ℚ)) (covered : Finset Str)
    (acc : List CovSubset) : List CovSubset :=
  match fuel with
  | 0 => acc
  | fuel + 1 =>
    match greedy_step subsets covered with
    | none => acc
    | some s => greedy_cover fuel subsets (covered ∪ s.2.2) (acc ++ [s])

/-- Modelled from the spec: `find_set_covering(subsets, value,
max_num_subsets)` lives in `genedescriptions/ontology_tools.py`, which is
not among the provided sources (only its test is).  Spec sections 4.3 and
7: when `value` is provided but its length does not match `subsets`, the
invalid-input signal (`None`) is returned; otherwise a greedy weighted
maximum-coverage selection is run (weights default to `1` when `value` is
absent), stopping when everything is covered, `max_num_subsets` picks
were made, or no subset covers anything new. -/
def find_set_covering (subsets : List CovSubset) (value : Option (List ℚ))
    (max_num_subsets : Nat) : Option (List CovSubset) :=
  match value with
  | some v =>
    if v.length ≠ subsets.length then none
    else some (greedy_cover max_num_subsets (subsets.zip v) ∅ [])
  | none => some (greedy_cover max_num_subsets (subsets.map (fun s => (s, (1 : ℚ)))) ∅ [])

/-! ## Claims -/

/-- C1: for every non-empty list of term names,
`compose_go_sentence(prefix, term_names, postfix)` returns the prefix, a
space, the Oxford-comma-and-"and" join of the term names, followed by a
space and the postfix when the postfix is non-empty; the result is never
empty and ends with the literal postfix verbatim when the postfix is
non-empty. -/
theorem claim_c1 (pfx pofx : Str) (go_term_names : List Str) (h : go_term_names ≠ []) :
    ∃ s, compose_go_sentence pfx go_term_names pofx = some s ∧
      s = pfx ++ [' '] ++ oxford_join go_term_names
            ++ (if pofx = [] then [] else ' ' :: pofx) ∧
      s ≠ [] ∧ (pofx ≠ [] → pofx <:+ s) := by
  refine ⟨_, compose_go_sentence_eq pfx pofx go_term_names h, rfl, ?_, ?_⟩
  · simp
  · intro hp
    rw [if_neg hp]
    refine List.IsSuffix.trans ⟨[' '], rfl⟩ ?_
    exact ⟨pfx ++ [' '] ++ oxford_join go_term_names, by simp⟩

theorem claim_c1_witness :
    (["apoptosis".toList, "cell division".toList] : List Str) ≠ [] ∧
    ∃ s, compose_go_sentence ("is involved in".toList)
            ["apoptosis".toList, "cell division".toList] ("processes".toList) = some s ∧
      s = "is involved in".toList ++ [' ']
            ++ oxford_join ["apoptosis".toList, "cell division".toList]
            ++ (if ("processes".toList : Str) = [] then [] else ' ' :: "processes".toList) ∧
      s ≠ [] ∧ (("processes".toList : Str) ≠ [] → "processes".toList <:+ s) :=
  ⟨by decide, claim_c1 _ _ _ (by decide)⟩

/-- C2: when the number of term names does not exceed
`min_number_of_terms`, the common-ancestor merge is the identity: it
returns exactly the set of ids of the input term names. -/
theorem claim_c2 (fuel : Nat) (go_terms_names : List Str) (d : Str → Str) (o : Ontology)
    (min_dist min_num : Nat) (h : go_terms_names.length ≤ min_num) :
    get_merged_term_ids_by_common_ancestor_from_term_names fuel go_terms_names d o
        min_dist min_num
      = (go_terms_names.map d).toFinset := by
  unfold get_merged_term_ids_by_common_ancestor_from_term_names
  rw [if_neg (by omega)]

theorem claim_c2_witness :
    (["a".toList, "b".toList] : List Str).length ≤ 3 ∧
    get_merged_term_ids_by_common_ancestor_from_term_names 2 ["a".toList, "b".toList]
        (fun n => 'i' :: n) ⟨[]⟩ 3 3
      = (["a".toList, "b".toList].map (fun n => 'i' :: n)).toFinset :=
  ⟨by decide, claim_c2 2 _ _ _ 3 3 (by decide)⟩

/-- C4: with a weight vector whose length differs from the number of
subsets, `find_set_covering` returns the invalid-input signal `none` and
never a partial selection. -/
theorem claim_c4 (subsets : List CovSubset) (v : List ℚ) (max_num : Nat)
    (h : v.length ≠ subsets.length) :
    find_set_covering subsets (some v) max_num = none := by
  simp [find_set_covering, h]

theorem claim_c4_witness :
    ([(1 : ℚ), 3] : List ℚ).length ≠
      ([(("1".toList : Str), ("1".toList : Str), ({"A".toList, "B".toList, "C".toList} : Finset Str)),
        ("2".toList, "2".toList, {"A".toList, "B".toList}),
        ("3".toList, "3".toList, {"C".toList}),
        ("4".toList, "4".toList, {"A".toList}),
        ("5".toList, "5".toList, {"B".toList}),
        ("6".toList, "6".toList, {"C".toList})] : List CovSubset).length ∧
    find_set_covering
        [(("1".toList : Str), ("1".toList : Str), ({"A".toList, "B".toList, "C".toList} : Finset Str)),
         ("2".toList, "2".toList, {"A".toList, "B".toList}),
         ("3".toList, "3".toList, {"C".toList}),
         ("4".toList, "4".toList, {"A".toList}),
         ("5".toList, "5".toList, {"B".toList}),
         ("6".toList, "6".toList, {"C".toList})]
        (some [(1 : ℚ), 3]) 3 = none :=
  ⟨by decide, claim_c4 _ _ 3 (by decide)⟩

/-- C5: a term whose node has no parents yields, under the default
arguments (`min_distance_from_root = 0`, empty previous path), exactly
the single-element path containing only that term id; and as soon as a
node's depth drops below `min_distance_from_root`, the accumulated path
prefix is returned as the one complete path. -/
theorem claim_c5 (f : Nat) (o : Ontology) (i : Str) (t : OntoTerm) (min_dist : Nat)
    (prev : List Str) (hq : query_term o i = some t) (hid : t.id = i) :
    (t.parents = [] → get_all_term_paths_to_root (f + 1) i o 0 [] = {[i]}) ∧
    (t.depth < min_dist → get_all_term_paths_to_root (f + 1) i o min_dist prev = {prev}) := by
  constructor
  · intro hp
    unfold get_all_term_paths_to_root
    simp [hq, hp, hid]
  · intro hd
    unfold get_all_term_paths_to_root
    simp [hq, Nat.not_le.mpr hd]

theorem claim_c5_witness :
    query_term ⟨[⟨"R".toList, "root".toList, 0, []⟩]⟩ "R".toList
        = some ⟨"R".toList, "root".toList, 0, []⟩ ∧
    (OntoTerm.mk "R".toList "root".toList 0 []).id = "R".toList ∧
    get_all_term_paths_to_root 1 "R".toList ⟨[⟨"R".toList, "root".toList, 0, []⟩]⟩ 0 []
        = {["R".toList]} ∧
    get_all_term_paths_to_root 1 "R".toList ⟨[⟨"R".toList, "root".toList, 0, []⟩]⟩ 2
        ["x".toList] = {["x".toList]} :=
  ⟨by decide, by decide,
    (claim_c5 0 ⟨[⟨"R".toList, "root".toList, 0, []⟩]⟩ "R".toList
      ⟨"R".toList, "root".toList, 0, []⟩ 2 ["x".toList] (by decide) (by decide)).1 (by decide),
    (claim_c5 0 ⟨[⟨"R".toList, "root".toList, 0, []⟩]⟩ "R".toList
      ⟨"R".toList, "root".toList, 0, []⟩ 2 ["x".toList] (by decide) (by decide)).2 (by decide)⟩

/-- C10: with an empty annotation list `generate_go_sentences` returns
`None` rather than an empty collection; with a non-empty annotation list
it returns a collection. -/
theorem claim_c10 (fuel : Nat) (annots : List Annot) (o : Ontology) (egpl : List Str)
    (prepofx : Str × Str → Str × Str) (sm : List ((Str × Str) × List SpecialCase))
    (em : List (Str × Str)) (rm : Bool) (th md : Nat) :
    (generate_go_sentences fuel [] o egpl prepofx sm em rm th md).1 = none ∧
    (annots ≠ [] →
      ((generate_go_sentences fuel annots o egpl prepofx sm em rm th md).1).isSome = true) := by
  constructor
  · simp [generate_go_sentences]
  · intro h
    match annots, h with
    | a :: rest, _ => simp [generate_go_sentences]

theorem claim_c10_witness :
    ([⟨"EXP".toList, "P".toList, "n".toList, "g".toList⟩] : List Annot) ≠ [] ∧
    (generate_go_sentences 1 [] ⟨[]⟩ [] (fun _ => ([], [])) [] [] false 0 0).1 = none ∧
    ((generate_go_sentences 1 [⟨"EXP".toList, "P".toList, "n".toList, "g".toList⟩] ⟨[]⟩ []
        (fun _ => ([], [])) [] [] false 0 0).1).isSome = true :=
  ⟨by decide,
    (claim_c10 1 [⟨"EXP".toList, "P".toList, "n".toList, "g".toList⟩] ⟨[]⟩ []
      (fun _ => ([], [])) [] [] false 0 0).1,
    (claim_c10 1 [⟨"EXP".toList, "P".toList, "n".toList, "g".toList⟩] ⟨[]⟩ []
      (fun _ => ([], [])) [] [] false 0 0).2 (by decide)⟩

/-! ### C9: mutation of the priority list -/

theorem process_annot_egpl_no_special (em : List (Str × Str)) (st : BucketState)
    (a : Annot) :
    (process_annot [] em st a).egpl = st.egpl := by
  unfold process_annot
  cases h : map_get em a.evidence with
  | none => rfl
  | some grp => simp [map_get]

theorem foldl_process_egpl_no_special (em : List (Str × Str)) (annots : List Annot)
    (st : BucketState) :
    (annots.foldl (process_annot [] em) st).egpl = st.egpl := by
  induction annots generalizing st with
  | nil => rfl
  | cons a l ih => rw [List.foldl_cons, ih, process_annot_egpl_no_special]

/-- C9 (counterexample): `generate_go_sentences` mutates its
`evidence_groups_priority_list` argument.  With one annotation matching a
special case, the caller's priority list has gained the synthetic
sub-group `EXPERIMENTAL1` after the call, so the arguments are not all
left unchanged. -/
theorem claim_c9_counterexample :
    (generate_go_sentences 1 [⟨"EXP".toList, "P".toList, "ab".toList, "GO:1".toList⟩]
        ⟨[]⟩ ["EXPERIMENTAL".toList] (fun _ => ([], []))
        [(("P".toList, "EXPERIMENTAL".toList), [⟨1, "a".toList, [], []⟩])]
        [("EXP".toList, "EXPERIMENTAL".toList)] false 0 0).2
      ≠ ["EXPERIMENTAL".toList] := by decide

/-- C9 (amended): `generate_go_sentences` leaves all of its arguments
unchanged except `evidence_groups_priority_list`, which can gain
synthetic special-case sub-groups; whenever the special-cases map is
empty the priority list is returned exactly as it was passed in. -/
theorem claim_c9_amended (fuel : Nat) (annots : List Annot) (o : Ontology) (egpl : List Str)
    (prepofx : Str × Str → Str × Str) (em : List (Str × Str)) (rm : Bool) (th md : Nat) :
    (generate_go_sentences fuel annots o egpl prepofx [] em rm th md).2 = egpl := by
  unfold generate_go_sentences
  by_cases h : 0 < annots.length
  · rw [if_pos h]
    exact foldl_process_egpl_no_special em annots ⟨[], egpl⟩
  · rw [if_neg h]

/-! ### C6: special-case redirection -/

theorem bucket_add_mem (g : List ((Str × Str) × List (Str × Str))) (k : Str × Str)
    (v : Str × Str) : v ∈ bucket_get (bucket_add g k v) k := by
  induction g with
  | nil => simp [bucket_add, bucket_get]
  | cons kv rest ih =>
    by_cases h : kv.1 == k
    · by_cases hv : v ∈ kv.2
      · simp [bucket_add, h, hv, bucket_get]
      · simp [bucket_add, h, hv, bucket_get]
    · simpa [bucket_add, h, bucket_get] using ih

theorem bucket_add_idem (g : List ((Str × Str) × List (Str × Str))) (k : Str × Str)
    (v : Str × Str) (hv : v ∈ bucket_get g k) : bucket_add g k v = g := by
  induction g with
  | nil => simp [bucket_get] at hv
  | cons kv rest ih =>
    obtain ⟨k1, v1⟩ := kv
    by_cases h : k1 == k
    · have hk : k1 = k := by simpa using h
      subst hk
      have : v ∈ v1 := by simpa [bucket_get, List.find?_cons_of_pos] using hv
      simp [bucket_add, this]
    · have : v ∈ bucket_get rest k := by
        simpa [bucket_get, List.find?_cons_of_neg, h] using hv
      simp [bucket_add, h, ih this]

theorem py_insert_after_first (l : List Str) (g x : Str) (hg : g ∈ l) :
    ∃ l1 l2, l = l1 ++ g :: l2 ∧ g ∉ l1 ∧
      py_insert l (py_index l g + 1) x = l1 ++ g :: x :: l2 := by
  induction l with
  | nil => cases hg
  | cons a rest ih =>
    by_cases h : a = g
    · subst h
      exact ⟨[], rest, rfl, by simp, by simp [py_index, py_insert]⟩
    · have hg' : g ∈ rest := by
        cases hg with
        | head => exact absurd rfl h
        | tail _ hm => exact hm
      obtain ⟨l1, l2, he, hn, hp⟩ := ih hg'
      refine ⟨a :: l1, l2, by rw [List.cons_append, ← he], ?_, ?_⟩
      · simp only [List.mem_cons, not_or]
        exact ⟨fun hh => h hh.symm, hn⟩
      · simp only [py_index, if_neg h, py_insert, List.take_succ_cons, List.drop_succ_cons,
          List.cons_append]
        rw [← py_insert, hp]

/-- C6: an annotation whose `(aspect, evidence group)` key has special
cases is redirected by the first literal-prefix-matching tuple into the
synthetic sub-group `group + str(priority_id)`; on first encounter that
sub-group is inserted into the priority list immediately after the first
occurrence of its parent group, and processing the same annotation again
changes nothing (idempotence). -/
theorem process_annot_special_eq (sm : List ((Str × Str) × List SpecialCase))
    (em : List (Str × Str)) (st : BucketState) (a : Annot) (grp : Str)
    (scs : List SpecialCase) (sc : SpecialCase)
    (h1 : map_get em a.evidence = some grp)
    (h2 : map_get sm (a.aspect, grp) = some scs)
    (h3 : scs.find? (fun c => c.pattern.isPrefixOf a.go_name) = some sc) :
    process_annot sm em st a =
      ⟨bucket_add st.groups (a.aspect, grp ++ nat_str sc.pid) (a.go_name, a.go_id),
        if grp ++ nat_str sc.pid ∈ st.egpl then st.egpl
        else py_insert st.egpl (py_index st.egpl grp + 1) (grp ++ nat_str sc.pid)⟩ := by
  unfold process_annot
  simp only [h1, h2, h3]

theorem claim_c6 (sm : List ((Str × Str) × List SpecialCase)) (em : List (Str × Str))
    (st : BucketState) (a : Annot) (grp : Str) (scs : List SpecialCase) (sc : SpecialCase)
    (h1 : map_get em a.evidence = some grp)
    (h2 : map_get sm (a.aspect, grp) = some scs)
    (h3 : scs.find? (fun c => c.pattern.isPrefixOf a.go_name) = some sc)
    (h4 : grp ∈ st.egpl)
    (h5 : grp ++ nat_str sc.pid ∉ st.egpl) :
    ((a.go_name, a.go_id) ∈
        bucket_get (process_annot sm em st a).groups (a.aspect, grp ++ nat_str sc.pid)) ∧
    (∃ l1 l2, st.egpl = l1 ++ grp :: l2 ∧ grp ∉ l1 ∧
        (process_annot sm em st a).egpl = l1 ++ grp :: (grp ++ nat_str sc.pid) :: l2) ∧
    process_annot sm em (process_annot sm em st a) a
      = process_annot sm em st a := by
  have hst := process_annot_special_eq sm em st a grp scs sc h1 h2 h3
  rw [if_neg h5] at hst
  obtain ⟨l1, l2, he, hn, hp⟩ := py_insert_after_first st.egpl grp (grp ++ nat_str sc.pid) h4
  refine ⟨?_, ⟨l1, l2, he, hn, ?_⟩, ?_⟩
  · rw [hst]
    exact bucket_add_mem _ _ _
  · rw [hst, hp]
  · have hst2 := process_annot_special_eq sm em (process_annot sm em st a) a grp
      scs sc h1 h2 h3
    have hmem : grp ++ nat_str sc.pid ∈ (process_annot sm em st a).egpl := by
      rw [hst, hp]
      simp
    rw [hst2, if_pos hmem]
    have hbmem : (a.go_name, a.go_id) ∈
        bucket_get (process_annot sm em st a).groups (a.aspect, grp ++ nat_str sc.pid) := by
      rw [hst]
      exact bucket_add_mem _ _ _
    rw [bucket_add_idem _ _ _ hbmem]

theorem claim_c6_witness :
    map_get [("E".toList, "G".toList)] ("E".toList) = some ("G".toList) ∧
    map_get [(("P".toList, "G".toList), [(⟨1, "da".toList, "pf".toList, "po".toList⟩ :
        SpecialCase)])] ("P".toList, "G".toList)
      = some [(⟨1, "da".toList, "pf".toList, "po".toList⟩ : SpecialCase)] ∧
    ([(⟨1, "da".toList, "pf".toList, "po".toList⟩ : SpecialCase)].find?
        (fun c => c.pattern.isPrefixOf ("dauer".toList))
      = some (⟨1, "da".toList, "pf".toList, "po".toList⟩ : SpecialCase)) ∧
    ("G".toList ∈ ["G".toList, "O".toList]) ∧
    ("G".toList ++ nat_str 1 ∉ ["G".toList, "O".toList]) ∧
    (((("dauer".toList : Str), ("g7".toList : Str)) ∈
        bucket_get (process_annot
            [(("P".toList, "G".toList), [⟨1, "da".toList, "pf".toList, "po".toList⟩])]
            [("E".toList, "G".toList)] ⟨[], ["G".toList, "O".toList]⟩
            ⟨"E".toList, "P".toList, "dauer".toList, "g7".toList⟩).groups
          ("P".toList, "G".toList ++ nat_str 1)) ∧
      (∃ l1 l2, (["G".toList, "O".toList] : List Str) = l1 ++ "G".toList :: l2 ∧
        "G".toList ∉ l1 ∧
        (process_annot
            [(("P".toList, "G".toList), [⟨1, "da".toList, "pf".toList, "po".toList⟩])]
            [("E".toList, "G".toList)] ⟨[], ["G".toList, "O".toList]⟩
            ⟨"E".toList, "P".toList, "dauer".toList, "g7".toList⟩).egpl
          = l1 ++ "G".toList :: ("G".toList ++ nat_str 1) :: l2) ∧
      process_annot
          [(("P".toList, "G".toList), [⟨1, "da".toList, "pf".toList, "po".toList⟩])]
          [("E".toList, "G".toList)]
          (process_annot
            [(("P".toList, "G".toList), [⟨1, "da".toList, "pf".toList, "po".toList⟩])]
            [("E".toList, "G".toList)] ⟨[], ["G".toList, "O".toList]⟩
            ⟨"E".toList, "P".toList, "dauer".toList, "g7".toList⟩)
          ⟨"E".toList, "P".toList, "dauer".toList, "g7".toList⟩
        = process_annot
            [(("P".toList, "G".toList), [⟨1, "da".toList, "pf".toList, "po".toList⟩])]
            [("E".toList, "G".toList)] ⟨[], ["G".toList, "O".toList]⟩
            ⟨"E".toList, "P".toList, "dauer".toList, "g7".toList⟩) :=
  ⟨by decide, by decide, by decide, by decide, by decide,
    claim_c6
      [(("P".toList, "G".toList), [⟨1, "da".toList, "pf".toList, "po".toList⟩])]
      [("E".toList, "G".toList)] ⟨[], ["G".toList, "O".toList]⟩
      ⟨"E".toList, "P".toList, "dauer".toList, "g7".toList⟩
      ("G".toList) [⟨1, "da".toList, "pf".toList, "po".toList⟩]
      ⟨1, "da".toList, "pf".toList, "po".toList⟩
      (by decide) (by decide) (by decide) (by decide) (by decide)⟩

/-! ### C3: idempotence of parent pruning -/

theorem name_of_eq (o : Ontology) (i n : Str)
    (h : (query_term o i).map OntoTerm.name = some n) : name_of o i = n := by
  unfold name_of
  cases hq : query_term o i with
  | none => simp [hq] at h
  | some t =>
    rw [hq] at h
    simpa using h

/-- If no member of the input has any other member among its ancestor
names, pruning keeps the whole input (as ids). -/
theorem prune_of_no_parents (fuel : Nat) (names : List Str) (d : Str → Str) (o : Ontology)
    (hdisj : ∀ n ∈ names, ∀ x ∈ get_all_go_parent_names fuel (d n) o, x ∉ names) :
    get_term_ids_without_parents_from_terms_names fuel names d o
      = names.toFinset.image d := by
  rw [prune_eq]
  congr 1
  rw [sdiff_eq_self_iff_disjoint, Finset.disjoint_left]
  intro x hxU hxS
  obtain ⟨n, hn, hxa⟩ := List.mem_flatMap.mp (List.mem_toFinset.mp hxU)
  exact hdisj n hn x hxa (List.mem_toFinset.mp hxS)

/-- C3: parent pruning is idempotent (applying it again to its own
output, mapped back to term names through the ontology, returns the same
id set); an input with no ancestor relationships among its members is
returned unchanged (as its id set); and the result never has more
elements than the input.  The hypothesis states that the name-to-id dict
and the ontology agree on the input names, which the calling pipeline
guarantees. -/
theorem claim_c3 (fuel : Nat) (names : List Str) (d : Str → Str) (o : Ontology)
    (H : ∀ n ∈ names, (query_term o (d n)).map OntoTerm.name = some n) :
    (get_term_ids_without_parents_from_terms_names fuel
        (((get_term_ids_without_parents_from_terms_names fuel names d o).sort (· ≤ ·)).map
          (name_of o)) d o
      = get_term_ids_without_parents_from_terms_names fuel names d o) ∧
    ((∀ n ∈ names, ∀ m ∈ names, m ∉ get_all_go_parent_names fuel (d n) o) →
      get_term_ids_without_parents_from_terms_names fuel names d o
        = (names.map d).toFinset) ∧
    (get_term_ids_without_parents_from_terms_names fuel names d o).card ≤ names.length := by
  have hr1 : get_term_ids_without_parents_from_terms_names fuel names d o
      = (names.toFinset
          \ (names.flatMap (fun n => get_all_go_parent_names fuel (d n) o)).toFinset).image d :=
    prune_eq fuel names d o
  have key : ∀ x ∈ names.toFinset
      \ (names.flatMap (fun n => get_all_go_parent_names fuel (d n) o)).toFinset,
      name_of o (d x) = x := by
    intro x hx
    exact name_of_eq o (d x) x (H x (List.mem_toFinset.mp (Finset.mem_sdiff.mp hx).1))
  have himg : ((names.toFinset
      \ (names.flatMap (fun n => get_all_go_parent_names fuel (d n) o)).toFinset).image d).image
        (name_of o)
      = names.toFinset
        \ (names.flatMap (fun n => get_all_go_parent_names fuel (d n) o)).toFinset := by
    rw [Finset.image_image]
    have heq : Set.EqOn (name_of o ∘ d) id
        ↑(names.toFinset
          \ (names.flatMap (fun n => get_all_go_parent_names fuel (d n) o)).toFinset) :=
      fun x hx => key x (Finset.mem_coe.mp hx)
    rw [Finset.image_congr heq, Finset.image_id]
  have hnames2 : (((get_term_ids_without_parents_from_terms_names fuel names d o).sort
        (· ≤ ·)).map (name_of o)).toFinset
      = names.toFinset
        \ (names.flatMap (fun n => get_all_go_parent_names fuel (d n) o)).toFinset := by
    rw [list_map_toFinset, Finset.sort_toFinset, hr1, himg]
  refine ⟨?_, ?_, ?_⟩
  · have hdisj : ∀ n ∈ ((get_term_ids_without_parents_from_terms_names fuel names d o).sort
        (· ≤ ·)).map (name_of o), ∀ x ∈ get_all_go_parent_names fuel (d n) o,
        x ∉ ((get_term_ids_without_parents_from_terms_names fuel names d o).sort
          (· ≤ ·)).map (name_of o) := by
      intro n hn x hxa hx
      have hn2 := List.mem_toFinset.mpr hn
      rw [hnames2] at hn2
      have hx2 := List.mem_toFinset.mpr hx
      rw [hnames2] at hx2
      have hnn : n ∈ names := List.mem_toFinset.mp (Finset.mem_sdiff.mp hn2).1
      have hxU : x ∈ (names.flatMap (fun n => get_all_go_parent_names fuel (d n) o)).toFinset :=
        List.mem_toFinset.mpr (List.mem_flatMap.mpr ⟨n, hnn, hxa⟩)
      exact (Finset.mem_sdiff.mp hx2).2 hxU
    rw [prune_of_no_parents fuel _ d o hdisj, hnames2, hr1]
  · intro hno
    have hdisj : ∀ n ∈ names, ∀ x ∈ get_all_go_parent_names fuel (d n) o, x ∉ names :=
      fun n hn x hxa hx => hno n hn x hx hxa
    rw [prune_of_no_parents fuel names d o hdisj, list_map_toFinset]
  · rw [hr1]
    calc ((names.toFinset
          \ (names.flatMap (fun n => get_all_go_parent_names fuel (d n) o)).toFinset).image
            d).card
        ≤ (names.toFinset
            \ (names.flatMap (fun n => get_all_go_parent_names fuel (d n) o)).toFinset).card :=
          Finset.card_image_le
      _ ≤ names.toFinset.card := Finset.card_le_card Finset.sdiff_subset
      _ ≤ names.length := names.toFinset_card_le

theorem claim_c3_witness :
    (∀ n ∈ (["a".toList, "b".toList] : List Str),
      (query_term ⟨[⟨"A".toList, "a".toList, 0, []⟩, ⟨"B".toList, "b".toList, 1, ["A".toList]⟩]⟩
          ((fun m => if m = "a".toList then "A".toList else "B".toList) n)).map OntoTerm.name
        = some n) ∧
    ((get_term_ids_without_parents_from_terms_names 2
        ((((get_term_ids_without_parents_from_terms_names 2 ["a".toList, "b".toList]
            (fun m => if m = "a".toList then "A".toList else "B".toList)
            ⟨[⟨"A".toList, "a".toList, 0, []⟩,
              ⟨"B".toList, "b".toList, 1, ["A".toList]⟩]⟩)).sort (· ≤ ·)).map
          (name_of ⟨[⟨"A".toList, "a".toList, 0, []⟩,
              ⟨"B".toList, "b".toList, 1, ["A".toList]⟩]⟩))
        (fun m => if m = "a".toList then "A".toList else "B".toList)
        ⟨[⟨"A".toList, "a".toList, 0, []⟩, ⟨"B".toList, "b".toList, 1, ["A".toList]⟩]⟩)
      = get_term_ids_without_parents_from_terms_names 2 ["a".toList, "b".toList]
          (fun m => if m = "a".toList then "A".toList else "B".toList)
          ⟨[⟨"A".toList, "a".toList, 0, []⟩, ⟨"B".toList, "b".toList, 1, ["A".toList]⟩]⟩) ∧
    ((∀ n ∈ (["a".toList, "b".toList] : List Str), ∀ m ∈ (["a".toList, "b".toList] : List Str),
        m ∉ get_all_go_parent_names 2
          ((fun m => if m = "a".toList then "A".toList else "B".toList) n)
          ⟨[⟨"A".toList, "a".toList, 0, []⟩, ⟨"B".toList, "b".toList, 1, ["A".toList]⟩]⟩) →
      get_term_ids_without_parents_from_terms_names 2 ["a".toList, "b".toList]
          (fun m => if m = "a".toList then "A".toList else "B".toList)
          ⟨[⟨"A".toList, "a".toList, 0, []⟩, ⟨"B".toList, "b".toList, 1, ["A".toList]⟩]⟩
        = ((["a".toList, "b".toList] : List Str).map
            (fun m => if m = "a".toList then "A".toList else "B".toList)).toFinset) ∧
    (get_term_ids_without_parents_from_terms_names 2 ["a".toList, "b".toList]
        (fun m => if m = "a".toList then "A".toList else "B".toList)
        ⟨[⟨"A".toList, "a".toList, 0, []⟩, ⟨"B".toList, "b".toList, 1, ["A".toList]⟩]⟩).card
      ≤ (["a".toList, "b".toList] : List Str).length :=
  ⟨by decide,
    claim_c3 2 ["a".toList, "b".toList]
      (fun m => if m = "a".toList then "A".toList else "B".toList)
      ⟨[⟨"A".toList, "a".toList, 0, []⟩, ⟨"B".toList, "b".toList, 1, ["A".toList]⟩]⟩
      (by decide)⟩

/-! ### C8: the text invariant -/

/-- C8: every sentence produced by the core satisfies
`text == compose_go_sentence(prefix, terms, postfix)` over its own
fields: both the per-bucket sentences of `_get_single_go_sentence` and
the sentences recomposed by `get_sentences` when merging groups with the
same prefix. -/
theorem claim_c8 :
    (∀ (go_term_names : List Str) (dict : List (Str × Str)) (aspect eg : Str)
        (pp : Str × Str → Str × Str) (s : GOSentence),
        _get_single_go_sentence go_term_names dict aspect eg pp = some s →
        compose_go_sentence s.pfx s.terms s.pofx = some s.text) ∧
    (∀ (fuel : Nat) (c : GOSentencesCollection) (aspect : Str) (o : Ontology)
        (keep : Bool) (infl : Str → Str) (s : GOSentence),
        s ∈ get_sentences fuel c aspect o keep true infl →
        compose_go_sentence s.pfx s.terms s.pofx = some s.text) := by
  constructor
  · intro names dict aspect eg pp s hs
    unfold _get_single_go_sentence at hs
    by_cases h : 0 < names.length
    · rw [if_pos h] at hs
      cases hc : compose_go_sentence (pp (aspect, eg)).1 names (pp (aspect, eg)).2 with
      | none => simp [hc] at hs
      | some txt =>
        simp only [hc, Option.some.injEq] at hs
        subst hs
        exact hc
    · rw [if_neg h] at hs
      exact absurd hs (by simp)
  · intro fuel c aspect o keep infl s hs
    simp only [get_sentences, if_true, Bool.true_eq] at hs
    rcases List.mem_map.mp hs with ⟨pm, hpm, rfl⟩
    have hlen : 0 < pm.2.terms.length := by
      have hf := (List.mem_filter.mp hpm).2
      simpa using hf
    have hne : pm.2.terms ≠ [] := List.ne_nil_of_length_pos hlen
    show compose_go_sentence pm.1 pm.2.terms (merge_pofx_phrases infl pm.2.pofx_list) = _
    rw [compose_go_sentence_eq _ (merge_pofx_phrases infl pm.2.pofx_list) _ hne]
    simp [compose_go_sentence_eq _ (merge_pofx_phrases infl pm.2.pofx_list) _ hne]

theorem claim_c8_witness :
    (_get_single_go_sentence ["x".toList] [] "P".toList "G".toList
        (fun _ => ("p".toList, "q".toList))
      = some ⟨"p".toList, ["x".toList], [], "q".toList, "p x q".toList,
          "P".toList, "G".toList⟩) ∧
    compose_go_sentence "p".toList ["x".toList] "q".toList = some "p x q".toList :=
  ⟨by decide,
    claim_c8.1 ["x".toList] [] "P".toList "G".toList (fun _ => ("p".toList, "q".toList))
      ⟨"p".toList, ["x".toList], [], "q".toList, "p x q".toList, "P".toList, "G".toList⟩
      (by decide)⟩

/-! ### C7: postfix merging -/

theorem foldl_min_aux (ps : List Str) (acc : Str) :
    (ps.foldl (fun a x => if x.length < a.length then x else a) acc = acc
      ∨ ps.foldl (fun a x => if x.length < a.length then x else a) acc ∈ ps) ∧
    (ps.foldl (fun a x => if x.length < a.length then x else a) acc).length ≤ acc.length ∧
    (∀ x ∈ ps, (ps.foldl (fun a x => if x.length < a.length then x else a) acc).length
      ≤ x.length) := by
  induction ps generalizing acc with
  | nil => simp
  | cons y ys ih =>
    simp only [List.foldl_cons]
    by_cases h : y.length < acc.length
    · rw [if_pos h]
      obtain ⟨h1, h2, h3⟩ := ih y
      refine ⟨?_, ?_, ?_⟩
      · rcases h1 with h1 | h1
        · exact Or.inr (by rw [h1]; exact List.mem_cons_self y ys)
        · exact Or.inr (List.mem_cons_of_mem y h1)
      · exact h2.trans (Nat.le_of_lt h)
      · intro x hx
        rcases List.mem_cons.mp hx with rfl | hx
        · exact h2
        · exact h3 x hx
    · rw [if_neg h]
      obtain ⟨h1, h2, h3⟩ := ih acc
      refine ⟨?_, h2, ?_⟩
      · rcases h1 with h1 | h1
        · exact Or.inl h1
        · exact Or.inr (List.mem_cons_of_mem y h1)
      · intro x hx
        rcases List.mem_cons.mp hx with rfl | hx
        · exact h2.trans (Nat.le_of_not_lt h)
        · exact h3 x hx

theorem shortest_phrase_spec (p : Str) (ps : List Str) :
    shortest_phrase (p :: ps) ∈ p :: ps ∧
    ∀ x ∈ p :: ps, (shortest_phrase (p :: ps)).length ≤ x.length := by
  obtain ⟨h1, h2, h3⟩ := foldl_min_aux ps p
  have hsp : shortest_phrase (p :: ps)
      = ps.foldl (fun a x => if x.length < a.length then x else a) p := rfl
  rw [hsp]
  constructor
  · rcases h1 with h1 | h1
    · rw [h1]
      exact List.mem_cons_self p ps
    · exact List.mem_cons_of_mem p h1
  · intro x hx
    rcases List.mem_cons.mp hx with rfl | hx
    · exact h2
    · exact h3 x hx

theorem rev_pre_iff {l1 l2 : List Char} : l1.reverse <+: l2.reverse ↔ l1 <:+ l2 :=
  List.reverse_prefix

theorem lead_run_common (sh : Str) (ps : List Str)
    (hlen : ∀ x ∈ ps, sh.length ≤ x.length) :
    ∀ x ∈ ps, lead_run ps sh <+: x := by
  induction sh generalizing ps with
  | nil =>
    intro x hx
    simp [lead_run]
  | cons c s ih =>
    intro x hx
    unfold lead_run
    by_cases hall : ps.all (fun y => y.headI == c)
    · rw [if_pos hall]
      have hxlen := hlen x hx
      obtain ⟨xt, rfl⟩ : ∃ t, x = c :: t := by
        cases x with
        | nil => simp at hxlen
        | cons u v =>
          have hu : u = c := by simpa using List.all_eq_true.mp hall _ hx
          exact ⟨v, by rw [hu]⟩
      have hlen' : ∀ y ∈ ps.map List.tail, s.length ≤ y.length := by
        intro y hy
        rcases List.mem_map.mp hy with ⟨z, hz, rfl⟩
        have hzl := hlen z hz
        cases z with
        | nil => simp at hzl
        | cons zh zt => simpa using Nat.le_of_succ_le_succ (by simpa using hzl)
      have htail : xt ∈ ps.map List.tail := List.mem_map.mpr ⟨c :: xt, hx, rfl⟩
      exact List.cons_prefix_cons.mpr ⟨rfl, ih (ps.map List.tail) hlen' xt htail⟩
    · rw [if_neg hall]
      exact List.nil_prefix

theorem lead_run_longest (cpre : Str) (sh : Str) (ps : List Str) (hmem : sh ∈ ps)
    (hc : ∀ x ∈ ps, cpre <+: x) : cpre.length ≤ (lead_run ps sh).length := by
  induction cpre generalizing ps sh with
  | nil => simp
  | cons e c' ih =>
    have hsh := hc sh hmem
    obtain ⟨s', rfl⟩ : ∃ s', sh = e :: s' := by
      cases sh with
      | nil => exact absurd (List.eq_nil_of_prefix_nil hsh) (by simp)
      | cons u v =>
        obtain ⟨rfl, -⟩ := List.cons_prefix_cons.mp hsh
        exact ⟨v, rfl⟩
    unfold lead_run
    have hall : ps.all (fun y => y.headI == e) := by
      rw [List.all_eq_true]
      intro y hy
      have hpy := hc y hy
      cases y with
      | nil => exact absurd (List.eq_nil_of_prefix_nil hpy) (by simp)
      | cons u v =>
        obtain ⟨rfl, -⟩ := List.cons_prefix_cons.mp hpy
        simp
    rw [if_pos hall]
    simp only [List.length_cons]
    apply Nat.succ_le_succ
    apply ih s' (ps.map List.tail) (List.mem_map.mpr ⟨e :: s', hmem, rfl⟩)
    intro y hy
    rcases List.mem_map.mp hy with ⟨z, hz, rfl⟩
    have hpz := hc z hz
    cases z with
    | nil => exact absurd (List.eq_nil_of_prefix_nil hpz) (by simp)
    | cons u v =>
      obtain ⟨rfl, hv⟩ := List.cons_prefix_cons.mp hpz
      simpa using hv

theorem oxford_join_assoc (fp lp2 : Str) (xs : List Str) (h : 1 < xs.length) :
    (if 2 < xs.length then
      fp ++ List.intercalate (", ".toList) xs.dropLast ++ ", and ".toList
        ++ xs.getLastD [] ++ lp2
     else if 1 < xs.length then fp ++ List.intercalate (" and ".toList) xs ++ lp2
     else fp ++ xs.headI ++ lp2)
    = fp ++ oxford_join xs ++ lp2 := by
  unfold oxford_join
  by_cases h2 : 2 < xs.length
  · simp [h2, List.append_assoc]
  · simp [h2, h, List.append_assoc]

/-- C7 (counterexample): the claim says the leading and trailing common
substrings are *stripped* from every postfix; the source instead calls
Python `str.replace`, which removes every occurrence.  On the phrases
`"in AB mm in CD"` and `"in XY in CD"` (common lead `"in "`, common
trail `" in CD"`), the source produces `"in AB mm CD and XY CD in CD"`
while the claimed stripping would produce `"in AB mm and XY in CD"`. -/
theorem claim_c7_counterexample :
    merge_pofx_phrases id ["in AB mm in CD".toList, "in XY in CD".toList]
        = "in AB mm CD and XY CD in CD".toList ∧
    merge_pofx_phrases_claimed id ["in AB mm in CD".toList, "in XY in CD".toList]
        = "in AB mm and XY in CD".toList ∧
    merge_pofx_phrases id ["in AB mm in CD".toList, "in XY in CD".toList]
        ≠ merge_pofx_phrases_claimed id ["in AB mm in CD".toList, "in XY in CD".toList] := by
  refine ⟨by decide, by decide, by decide⟩

/-- C7 (amended): for two or more postfix phrases the merge computes the
longest common leading substring and the longest common trailing
substring (characterized below as genuinely longest among common
prefixes/suffixes), removes every occurrence of the leading part and
then of the trailing part from each phrase (Python `str.replace`, rather
than stripping the anchored ends only), pluralizes the trailing part
when the source's single-word test holds, and returns
lead ++ Oxford-join of the middles ++ trailing part; a single-element
list is returned unchanged. -/
theorem claim_c7_amended (infl : Str → Str) (p a b : Str) (l : List Str) :
    merge_pofx_phrases infl [p] = p ∧
    ∃ fp lp,
      (∀ x ∈ a :: b :: l, fp <+: x) ∧
      (∀ cpre : Str, (∀ x ∈ a :: b :: l, cpre <+: x) → cpre.length ≤ fp.length) ∧
      (∀ x ∈ a :: b :: l, lp <:+ x) ∧
      (∀ csuf : Str, (∀ x ∈ a :: b :: l, csuf <:+ x) → csuf.length ≤ lp.length) ∧
      merge_pofx_phrases infl (a :: b :: l) =
        fp ++ oxford_join ((a :: b :: l).map (fun x => replace_all lp (replace_all fp x)))
           ++ (if (py_split_space (py_strip lp)).length = 1 then infl lp else lp) := by
  constructor
  · simp [merge_pofx_phrases]
  · obtain ⟨hsm, hsl⟩ := shortest_phrase_spec a (b :: l)
    refine ⟨lead_run (a :: b :: l) (shortest_phrase (a :: b :: l)),
      (lead_run ((a :: b :: l).map List.reverse)
        (shortest_phrase (a :: b :: l)).reverse).reverse, ?_, ?_, ?_, ?_, ?_⟩
    · exact lead_run_common _ _ hsl
    · intro cpre hcp
      exact lead_run_longest cpre _ _ hsm hcp
    · intro x hx
      have hrev : ∀ y ∈ (a :: b :: l).map List.reverse,
          (shortest_phrase (a :: b :: l)).reverse.length ≤ y.length := by
        intro y hy
        rcases List.mem_map.mp hy with ⟨z, hz, rfl⟩
        simpa using hsl z hz
      have hpre := lead_run_common _ _ hrev x.reverse (List.mem_map.mpr ⟨x, hx, rfl⟩)
      rw [← List.reverse_reverse
        (lead_run ((a :: b :: l).map List.reverse) (shortest_phrase (a :: b :: l)).reverse)]
        at hpre
      exact rev_pre_iff.mp hpre
    · intro csuf hcs
      have hrev : ∀ y ∈ (a :: b :: l).map List.reverse, csuf.reverse <+: y := by
        intro y hy
        rcases List.mem_map.mp hy with ⟨z, hz, rfl⟩
        exact rev_pre_iff.mpr (hcs z hz)
      have := lead_run_longest csuf.reverse _ _
        (List.mem_map.mpr ⟨shortest_phrase (a :: b :: l), hsm, rfl⟩) hrev
      simpa using this
    · have h1 : 1 < (a :: b :: l).length := by simp
      have hmap : 1 < ((a :: b :: l).map
          (fun x => replace_all
            ((lead_run ((a :: b :: l).map List.reverse)
              (shortest_phrase (a :: b :: l)).reverse).reverse)
            (replace_all (lead_run (a :: b :: l) (shortest_phrase (a :: b :: l))) x))).length := by
        simp
      unfold merge_pofx_phrases
      rw [if_pos h1]
      exact oxford_join_assoc _ _ _ hmap

theorem claim_c7_amended_witness :
    merge_pofx_phrases id ["q".toList] = "q".toList :=
  (claim_c7_amended id "q".toList "a".toList "b".toList []).1

theorem claim_c9_amended_witness :
    (generate_go_sentences 1 [⟨"EXP".toList, "P".toList, "n".toList, "g".toList⟩] ⟨[]⟩
        ["G".toList] (fun _ => ([], [])) [] [] false 0 0).2 = ["G".toList] :=
  claim_c9_amended 1 [⟨"EXP".toList, "P".toList, "n".toList, "g".toList⟩] ⟨[]⟩
    ["G".toList] (fun _ => ([], [])) [] false 0 0

end GeneDesc
